import Mathlib

/-!
# Formal model of the Combinatorial-Auction-BRACE core

A shallow embedding of the repository's core (src/types.rs, src/pricing.rs,
src/brace.rs, src/auction.rs) and proofs about it.

Modelling conventions:
* `f64` values (preference values, prices, epsilon, the 1e-9 demand tolerance
  and the 0.1 price step) are modelled as rationals `ℚ`; the algorithms only
  add, subtract, negate and compare these values, so the linear ordered field
  `ℚ` reproduces the control flow exactly for inputs whose values are exactly
  representable.  `f64::NEG_INFINITY` (the initial best utility in
  `demand_set`) is modelled as `Option ℚ` with `none` for minus infinity.
* `HashMap<String, V>` / `HashMap<BundleKey, f64>` are modelled as association
  lists with overwrite-on-insert (`insertA`); the only iterations the code
  performs over hash maps (counting values, folding `max` over absolute
  deltas, applying a delta map with distinct keys) are order-insensitive.
* `HashSet<Good>` (a `Bundle`) is modelled as `List Good`; the code only
  iterates, tests membership (with `Good`'s full derived equality), takes the
  length and compares by the sorted-id canonical key.
* `BundleKey::from_bundle` sorts the ids with `Vec::sort`; the model sorts
  with an insertion sort over byte-wise string order.  Only equality of keys
  is ever consumed, and equality of sorted lists is equality of id multisets
  for any linear order, so the choice of sorting algorithm is immaterial.
-/

/-- Association-list lookup: the model of `HashMap::get`. -/
def lookupA {κ β : Type} [DecidableEq κ] : List (κ × β) → κ → Option β
  | [], _ => none
  | kv :: rest, k => if kv.1 = k then some kv.2 else lookupA rest k

/-- Association-list overwrite-insert: the model of `HashMap::insert`. -/
def insertA {κ β : Type} [DecidableEq κ] : List (κ × β) → κ → β → List (κ × β)
  | [], k, v => [(k, v)]
  | kv :: rest, k, v => if kv.1 = k then (k, v) :: rest else kv :: insertA rest k v

/-- The model of `*map.entry(k).or_insert(0.0) += v`. -/
def upsertAddA {κ : Type} [DecidableEq κ] : List (κ × ℚ) → κ → ℚ → List (κ × ℚ)
  | [], k, v => [(k, v)]
  | kv :: rest, k, v =>
    if kv.1 = k then (kv.1, kv.2 + v) :: rest else kv :: upsertAddA rest k v

/-- The model of `f64::abs`. -/
def absQ (q : ℚ) : ℚ := if q < 0 then -q else q

/-- The model of `f64::max`. -/
def maxQ (a b : ℚ) : ℚ := if a < b then b else a

/-- Byte-wise (here: scalar-value-wise) comparison of char lists, the order
`Vec::sort` uses on `String`s restricted to the ASCII ids that occur. -/
def charsLe : List Char → List Char → Bool
  | [], _ => true
  | _ :: _, [] => false
  | a :: as, b :: bs =>
    if a.toNat < b.toNat then true
    else if b.toNat < a.toNat then false
    else charsLe as bs

/-- String order for sorting good ids. -/
def strLe (a b : String) : Bool := charsLe a.data b.data

/-- Insert into a sorted list of strings. -/
def sortedInsert (x : String) : List String → List String
  | [] => [x]
  | y :: ys => if strLe x y then x :: y :: ys else y :: sortedInsert x ys

/-- Sort a list of strings: the model of `good_ids.sort()`. -/
def sortStrings : List String → List String
  | [] => []
  | x :: xs => sortedInsert x (sortStrings xs)

/-- `Good` (src/types.rs): id plus display name.  The derived `PartialEq`,
`Eq` and `Hash` compare and hash *both* fields. -/
structure Good where
  id : String
  name : String
deriving DecidableEq

/-- The field tuple a derived `Hash` implementation feeds to the hasher: the
two `Good`s hash identically exactly when these tuples coincide. -/
def goodHashData (g : Good) : String × String := (g.id, g.name)

/-- A `Bundle` is a `HashSet<Good>`, modelled as a list of goods. -/
abbrev Bundle := List Good

/-- `BundleKey::from_bundle`: the sorted list of good ids of a bundle. -/
def bundleKey (b : Bundle) : List String := sortStrings (b.map Good.id)

/-- `Agent` (src/types.rs): id, endowment, sparse preference map keyed by
canonical bundle keys, and the registered bundles in registration order. -/
structure Agent where
  id : String
  endowment : Bundle
  preferences : List (List String × ℚ)
  bundles : List Bundle
deriving DecidableEq

/-- `Agent::new`. -/
def Agent.new (id : String) (endowment : Bundle) : Agent :=
  ⟨id, endowment, [], []⟩

/-- `Agent::add_preference`: overwrite the keyed value, append the bundle. -/
def Agent.add_preference (a : Agent) (bundle : Bundle) (value : ℚ) : Agent :=
  { a with
    preferences := insertA a.preferences (bundleKey bundle) value
    bundles := a.bundles ++ [bundle] }

/-- `Agent::preference`: keyed lookup defaulting to `0.0`. -/
def Agent.preference (a : Agent) (bundle : Bundle) : ℚ :=
  (lookupA a.preferences (bundleKey bundle)).getD 0

/-- `Agent::prefers`: strict preference of `b1` over `b2`. -/
abbrev Agent.prefers (a : Agent) (b1 b2 : Bundle) : Prop :=
  a.preference b2 < a.preference b1

/-- `Agent::preference_bundles`. -/
def Agent.preference_bundles (a : Agent) : List Bundle := a.bundles

/-- `Allocation` (src/types.rs): agent id to bundle. -/
structure Allocation where
  assignments : List (String × Bundle)
deriving DecidableEq

/-- `Allocation::new`. -/
def Allocation.new : Allocation := ⟨[]⟩

/-- `Allocation::assign`. -/
def Allocation.assign (al : Allocation) (agent_id : String) (bundle : Bundle) :
    Allocation :=
  ⟨insertA al.assignments agent_id bundle⟩

/-- `Allocation::get_bundle`. -/
def Allocation.get_bundle (al : Allocation) (agent_id : String) : Option Bundle :=
  lookupA al.assignments agent_id

/-- `PriceVector` (src/pricing.rs). -/
structure PriceVector where
  prices : List (String × ℚ)
deriving DecidableEq

/-- `PriceVector::new`. -/
def PriceVector.new : PriceVector := ⟨[]⟩

/-- `PriceVector::set_price`. -/
def PriceVector.set_price (p : PriceVector) (good_id : String) (price : ℚ) :
    PriceVector :=
  ⟨insertA p.prices good_id price⟩

/-- `PriceVector::get_price`: defaults to `0.0`. -/
def PriceVector.get_price (p : PriceVector) (good_id : String) : ℚ :=
  (lookupA p.prices good_id).getD 0

/-- `PriceVector::bundle_price`: sum of the member goods' prices. -/
def PriceVector.bundle_price (p : PriceVector) (b : Bundle) : ℚ :=
  (b.map fun g => p.get_price g.id).sum

/-- `PriceVector::net_utility`: preference value minus bundle price. -/
def PriceVector.net_utility (p : PriceVector) (a : Agent) (b : Bundle) : ℚ :=
  a.preference b - p.bundle_price b

/-- The `1e-9` absolute tolerance in `demand_set`. -/
def demandTol : ℚ := 1 / 1000000000

/-- One step of the `demand_set` scan: running best utility (`none` models the
`f64::NEG_INFINITY` start) and the bundles collected so far. -/
def demandStep (p : PriceVector) (a : Agent) (st : Option ℚ × List Bundle)
    (b : Bundle) : Option ℚ × List Bundle :=
  let u := p.net_utility a b
  match st.1 with
  | none => (some u, [b])
  | some best =>
    if best < u then (some u, [b])
    else if absQ (u - best) < demandTol then (some best, st.2 ++ [b])
    else st

/-- `PriceVector::demand_set`: scan the registered bundles, keep those within
`1e-9` of the running maximum net utility. -/
def PriceVector.demand_set (p : PriceVector) (a : Agent) : List Bundle :=
  (a.bundles.foldl (demandStep p a) (none, [])).2

/-- The fixed `step_size = 0.1` of the price solver. -/
def step_size : ℚ := 1 / 10

/-- One round's accumulated per-good price deltas (the `price_changes` map of
`compute_equilibrium_prices`). -/
def roundChanges (agents : List Agent) (alloc : Allocation)
    (prices : PriceVector) : List (String × ℚ) :=
  agents.foldl
    (fun changes a =>
      match alloc.get_bundle a.id with
      | none => changes
      | some allocated =>
        let demand := prices.demand_set a
        let in_demand := demand.any fun b =>
          b.length == allocated.length && b.all fun g => decide (g ∈ allocated)
        if in_demand then changes
        else allocated.foldl (fun ch g => upsertAddA ch g.id step_size) changes)
    []

/-- The maximum absolute delta of a round (`values().map(abs).fold(0.0, max)`). -/
def maxChange (changes : List (String × ℚ)) : ℚ :=
  changes.foldl (fun m kv => maxQ m (absQ kv.2)) 0

/-- Apply a round's deltas (`set_price(good, get_price(good) + change)`). -/
def applyChanges (prices : PriceVector) (changes : List (String × ℚ)) :
    PriceVector :=
  changes.foldl (fun pr kv => pr.set_price kv.1 (pr.get_price kv.1 + kv.2)) prices

/-- The bounded price-adjustment loop of `compute_equilibrium_prices`:
stop when the maximum delta falls below `epsilon` (without applying the
round's deltas) or when the iteration budget runs out. -/
def cepLoop (agents : List Agent) (alloc : Allocation) (epsilon : ℚ) :
    Nat → PriceVector → PriceVector
  | 0, prices => prices
  | n + 1, prices =>
    let changes := roundChanges agents alloc prices
    if maxChange changes < epsilon then prices
    else cepLoop agents alloc epsilon n (applyChanges prices changes)

/-- All listed goods priced at `0.0`: the initialization both of
`compute_equilibrium_prices` and of `compute_allocation`'s bootstrap prices. -/
def zeroPrices (goods : List Good) : PriceVector :=
  goods.foldl (fun pr g => pr.set_price g.id 0) PriceVector.new

/-- `compute_equilibrium_prices` (src/pricing.rs): up to 1000 ascending
adjustment rounds from all-zero prices. -/
def compute_equilibrium_prices (agents : List Agent) (goods : List Good)
    (alloc : Allocation) (epsilon : ℚ) : PriceVector :=
  cepLoop agents alloc epsilon 1000 (zeroPrices goods)

/-- `BRACEMechanism` (src/brace.rs). -/
structure BRACEMechanism where
  epsilon : ℚ

/-- `BRACEMechanism::try_trade`: swap the two agents' currently allocated
bundles if both strictly prefer the other's. -/
def BRACEMechanism.try_trade (_m : BRACEMechanism) (agent1 agent2 : Agent)
    (current : Allocation) (_prices : PriceVector) : Option Allocation :=
  match current.get_bundle agent1.id, current.get_bundle agent2.id with
  | some bundle1, some bundle2 =>
    let newAlloc := (current.assign agent1.id bundle2).assign agent2.id bundle1
    if agent1.prefers bundle2 bundle1 ∧ agent2.prefers bundle1 bundle2 then
      some newAlloc
    else none
  | _, _ => none

/-- The loop body of `is_pareto_improving`: early-out `false` on a strictly
worse agent, remember whether some agent improved. -/
def paretoGo (oldA newA : Allocation) : List Agent → Bool → Bool
  | [], flag => flag
  | a :: rest, flag =>
    match oldA.get_bundle a.id, newA.get_bundle a.id with
    | some o, some n =>
      if a.prefers n o then paretoGo oldA newA rest true
      else if a.prefers o n then false
      else paretoGo oldA newA rest flag
    | _, _ => paretoGo oldA newA rest flag

/-- `BRACEMechanism::is_pareto_improving`. -/
def BRACEMechanism.is_pareto_improving (_m : BRACEMechanism) (agents : List Agent)
    (oldA newA : Allocation) : Bool :=
  paretoGo oldA newA agents false

/-- The ordered scan of unordered index pairs `i < j` of the nested loops in
`improve_allocation` and `verify_ordinal_efficiency`. -/
def agentPairs : List Agent → List (Agent × Agent)
  | [] => []
  | a :: rest => (rest.map fun b => (a, b)) ++ agentPairs rest

/-- `BRACEMechanism::improve_allocation`: scan all pairs, commit each
Pareto-checked accepted swap immediately; report whether any committed. -/
def BRACEMechanism.improve_allocation (m : BRACEMechanism) (agents : List Agent)
    (_goods : List Good) (alloc : Allocation) (prices : PriceVector) :
    Allocation × Bool :=
  (agentPairs agents).foldl
    (fun st pq =>
      match m.try_trade pq.1 pq.2 st.1 prices with
      | some newAlloc =>
        if m.is_pareto_improving agents st.1 newAlloc then (newAlloc, true) else st
      | none => st)
    (alloc, false)

/-- The endowment allocation `compute_allocation` starts from. -/
def initialAllocation (agents : List Agent) : Allocation :=
  agents.foldl (fun al a => al.assign a.id a.endowment) Allocation.new

/-- The bounded improvement loop of `compute_allocation` (`max_iterations =
100`), stopping at the first round without a committed swap. -/
def improveLoop (m : BRACEMechanism) (agents : List Agent) (goods : List Good)
    (prices : PriceVector) : Nat → Allocation → Allocation
  | 0, alloc => alloc
  | n + 1, alloc =>
    let r := m.improve_allocation agents goods alloc prices
    if r.2 then improveLoop m agents goods prices n r.1 else r.1

/-- `BRACEMechanism::compute_allocation` (src/brace.rs). -/
def BRACEMechanism.compute_allocation (m : BRACEMechanism) (agents : List Agent)
    (goods : List Good) : Allocation × PriceVector :=
  let alloc := improveLoop m agents goods (zeroPrices goods) 100
    (initialAllocation agents)
  (alloc, compute_equilibrium_prices agents goods alloc m.epsilon)

/-- The per-good occupancy count of `verify_feasibility`. -/
def goodCount (alloc : Allocation) (g : Good) : Nat :=
  alloc.assignments.foldl (fun c kv => if g ∈ kv.2 then c + 1 else c) 0

/-- `BRACEMechanism::verify_feasibility`: every listed good is held by at most
`1 + epsilon` agents. -/
def BRACEMechanism.verify_feasibility (m : BRACEMechanism) (alloc : Allocation)
    (goods : List Good) : Bool :=
  goods.all fun g => !decide ((1 : ℚ) + m.epsilon < (goodCount alloc g : ℚ))

/-- `BRACEMechanism::verify_individual_rationality`: no allocated agent
strictly prefers its endowment to its bundle. -/
def BRACEMechanism.verify_individual_rationality (_m : BRACEMechanism)
    (agents : List Agent) (alloc : Allocation) : Bool :=
  agents.all fun a =>
    match alloc.get_bundle a.id with
    | some b => !decide (a.prefers a.endowment b)
    | none => true

/-- `BRACEMechanism::verify_ordinal_efficiency`: no pairwise swap would make
both agents strictly better off. -/
def BRACEMechanism.verify_ordinal_efficiency (_m : BRACEMechanism)
    (agents : List Agent) (alloc : Allocation) : Bool :=
  (agentPairs agents).all fun pq =>
    match alloc.get_bundle pq.1.id, alloc.get_bundle pq.2.id with
    | some bi, some bj =>
      !(decide (pq.1.prefers bj bi) && decide (pq.2.prefers bi bj))
    | _, _ => true

/-- `AuctionResult` (src/types.rs). -/
structure AuctionResult where
  allocation : Allocation
  prices : List (String × ℚ)
  total_welfare : ℚ
  is_feasible : Bool
  is_individually_rational : Bool
  is_ordinal_efficient : Bool

/-- `CombinatorialAuction` (src/auction.rs). -/
structure CombinatorialAuction where
  agents : List Agent
  goods : List Good
  mechanism : BRACEMechanism

/-- `CombinatorialAuction::new`. -/
def CombinatorialAuction.new (agents : List Agent) (goods : List Good)
    (epsilon : ℚ) : CombinatorialAuction :=
  ⟨agents, goods, ⟨epsilon⟩⟩

/-- `CombinatorialAuction::calculate_welfare`. -/
def CombinatorialAuction.calculate_welfare (c : CombinatorialAuction)
    (alloc : Allocation) : ℚ :=
  (c.agents.filterMap fun a => (alloc.get_bundle a.id).map fun b =>
    a.preference b).sum

/-- `CombinatorialAuction::run`. -/
def CombinatorialAuction.run (c : CombinatorialAuction) : AuctionResult :=
  let pr := c.mechanism.compute_allocation c.agents c.goods
  { allocation := pr.1
    prices := pr.2.prices
    total_welfare := c.calculate_welfare pr.1
    is_feasible := c.mechanism.verify_feasibility pr.1 c.goods
    is_individually_rational :=
      c.mechanism.verify_individual_rationality c.agents pr.1
    is_ordinal_efficient :=
      c.mechanism.verify_ordinal_efficiency c.agents pr.1 }

/-! ## Concrete inputs used by the worked scenarios and counterexamples -/

/-- The two goods of the spec's worked scenario 1. -/
def gA : Good := ⟨"A", "GoodA"⟩

/-- Second good of the worked scenario. -/
def gB : Good := ⟨"B", "GoodB"⟩

/-- Scenario 1's Agent1: endowment {A}, preferences {A,B}:10, {A}:5. -/
def agent1 : Agent :=
  ((Agent.new "Agent1" [gA]).add_preference [gA, gB] 10).add_preference [gA] 5

/-- Scenario 1's Agent2: endowment {B}, preferences {A,B}:8, {B}:4. -/
def agent2 : Agent :=
  ((Agent.new "Agent2" [gB]).add_preference [gA, gB] 8).add_preference [gB] 4

/-- Scenario 1's auction with epsilon 0.01. -/
def auction1 : CombinatorialAuction :=
  CombinatorialAuction.new [agent1, agent2] [gA, gB] (1 / 100)

/-- Two agents sharing the id "x": the second's endowment overwrites the
first's entry in the endowment allocation. -/
def dup1 : Agent := (Agent.new "x" [gA]).add_preference [gA] 5

/-- Second agent with the duplicate id "x". -/
def dup2 : Agent := Agent.new "x" [gB]

/-- An agent whose two registered bundles have net utilities 0 and
2⁻³¹ ≈ 4.66e-10 at zero prices: closer together than the 1e-9 tolerance. -/
def tieX : Agent :=
  ((Agent.new "x" []).add_preference [gA] 0).add_preference [gB] (1 / 2147483648)

/-- The same catalog registered in the opposite order. -/
def tieY : Agent :=
  ((Agent.new "y" []).add_preference [gB] (1 / 2147483648)).add_preference [gA] 0

/-- With an empty goods list these two agents still swap their endowments. -/
def swapA : Agent := (Agent.new "1" [gA]).add_preference [gB] 5

/-- Trading partner of `swapA`. -/
def swapB : Agent := (Agent.new "2" [gB]).add_preference [gA] 5

/-- An auction with a non-empty agent list but an empty goods list. -/
def auctionNoGoods : CombinatorialAuction :=
  CombinatorialAuction.new [swapA, swapB] [] (1 / 100)

/-- Agent with an empty preference catalog endowed with {A}. -/
def clashA : Agent := Agent.new "1" [gA]

/-- Second empty-catalog agent also endowed with {A}. -/
def clashB : Agent := Agent.new "2" [gA]

/-- An auction whose agents all have empty catalogs but overlapping
endowments. -/
def auctionEmptyCat : CombinatorialAuction :=
  CombinatorialAuction.new [clashA, clashB] [gA] (1 / 100)

/-- First trading agent of the Pareto-re-check counterexample. -/
def a5x : Agent :=
  ((Agent.new "1" [gA]).add_preference [gA] 1).add_preference [gB] 5

/-- Second trading agent of the Pareto-re-check counterexample. -/
def a5y : Agent :=
  ((Agent.new "2" [gB]).add_preference [gB] 1).add_preference [gA] 5

/-- Third agent sharing id "1" with `a5x` but preferring {A} to {B}. -/
def a5z : Agent := (Agent.new "1" [gA]).add_preference [gA] 9

/-- The agent list of the Pareto-re-check counterexample. -/
def agents5 : List Agent := [a5x, a5y, a5z]

/-- A one-agent input with pairwise-distinct ids (trivially) used to witness
the individual-rationality theorem. -/
def irW : Agent := (Agent.new "w" [gA]).add_preference [gA] 5

/-- Witness trading pair for the Pareto re-check theorem. -/
def tw1 : Agent := (Agent.new "1" [gA]).add_preference [gB] 5

/-- Witness trading partner. -/
def tw2 : Agent := (Agent.new "2" [gB]).add_preference [gA] 5

/-! ## Association-list and sorting lemmas -/

theorem lookupA_insertA_self {κ β : Type} [DecidableEq κ] (m : List (κ × β))
    (k : κ) (v : β) : lookupA (insertA m k v) k = some v := by
  induction m with
  | nil => simp [insertA, lookupA]
  | cons kv rest ih =>
    by_cases h : kv.1 = k
    · simp [insertA, lookupA, h]
    · simp [insertA, lookupA, h, ih]

theorem lookupA_insertA_ne {κ β : Type} [DecidableEq κ] (m : List (κ × β))
    (k k2 : κ) (v : β) (h : k2 ≠ k) :
    lookupA (insertA m k v) k2 = lookupA m k2 := by
  have hne : ¬k = k2 := fun hkk => h hkk.symm
  induction m with
  | nil => simp [insertA, lookupA, hne]
  | cons kv rest ih =>
    by_cases hk : kv.1 = k
    · subst hk
      simp [insertA, lookupA, hne, h]
    · by_cases hk2 : kv.1 = k2
      · simp [insertA, lookupA, hk, hk2, h]
      · simp [insertA, lookupA, hk, hk2, ih]

theorem mem_insertA {κ β : Type} [DecidableEq κ] (m : List (κ × β))
    (k : κ) (v : β) (kv : κ × β) (h : kv ∈ insertA m k v) :
    kv = (k, v) ∨ kv ∈ m := by
  induction m with
  | nil =>
    simp [insertA] at h
    exact Or.inl h
  | cons kv2 rest ih =>
    by_cases hk : kv2.1 = k
    · simp only [insertA, if_pos hk, List.mem_cons] at h
      rcases h with h | h
      · exact Or.inl h
      · exact Or.inr (List.mem_cons_of_mem _ h)
    · simp only [insertA, if_neg hk, List.mem_cons] at h
      rcases h with h | h
      · exact Or.inr (h ▸ List.mem_cons_self _ _)
      · rcases ih h with h2 | h2
        · exact Or.inl h2
        · exact Or.inr (List.mem_cons_of_mem _ h2)

theorem isSome_lookupA_insertA {κ β : Type} [DecidableEq κ] (m : List (κ × β))
    (k k2 : κ) (v : β) (h : (lookupA m k2).isSome = true) :
    (lookupA (insertA m k v) k2).isSome = true := by
  by_cases hk : k2 = k
  · subst hk
    rw [lookupA_insertA_self]
    rfl
  · rw [lookupA_insertA_ne m k k2 v hk]
    exact h

theorem mem_upsertAddA {κ : Type} [DecidableEq κ] (m : List (κ × ℚ))
    (k : κ) (v : ℚ) (kv : κ × ℚ) (h : kv ∈ upsertAddA m k v) :
    (∃ kv2 ∈ m, kv = (kv2.1, kv2.2 + v)) ∨ kv = (k, v) ∨ kv ∈ m := by
  induction m with
  | nil =>
    simp [upsertAddA] at h
    exact Or.inr (Or.inl h)
  | cons kv2 rest ih =>
    by_cases hk : kv2.1 = k
    · simp only [upsertAddA, if_pos hk, List.mem_cons] at h
      rcases h with h | h
      · exact Or.inl ⟨kv2, List.mem_cons_self _ _, h⟩
      · exact Or.inr (Or.inr (List.mem_cons_of_mem _ h))
    · simp only [upsertAddA, if_neg hk, List.mem_cons] at h
      rcases h with h | h
      · exact Or.inr (Or.inr (h ▸ List.mem_cons_self _ _))
      · rcases ih h with ⟨kv3, hm, he⟩ | h2 | h2
        · exact Or.inl ⟨kv3, List.mem_cons_of_mem _ hm, he⟩
        · exact Or.inr (Or.inl h2)
        · exact Or.inr (Or.inr (List.mem_cons_of_mem _ h2))

theorem sortedInsert_perm (x : String) (l : List String) :
    (sortedInsert x l).Perm (x :: l) := by
  induction l with
  | nil => simp [sortedInsert]
  | cons y ys ih =>
    by_cases h : strLe x y = true
    · simp [sortedInsert, h]
    · simp only [sortedInsert, if_neg h]
      exact ((ih.cons y).trans (List.Perm.swap x y ys))

theorem sortStrings_perm (l : List String) : (sortStrings l).Perm l := by
  induction l with
  | nil => simp [sortStrings]
  | cons x xs ih =>
    exact (sortedInsert_perm x (sortStrings xs)).trans (ih.cons x)

/-! ## C6: equality and hashing of `Good` -/

/-- C6 (counterexample): two `Good`s with the same id but different names are
*not* equal under the derived equality, refuting "g1 equals g2 iff g1.id
equals g2.id". -/
theorem C6_name_breaks_id_equality :
    (Good.mk "a" "x").id = (Good.mk "a" "y").id
    ∧ Good.mk "a" "x" ≠ Good.mk "a" "y" := by
  constructor
  · rfl
  · decide

/-- C6 (amended): the derived equality and derived hashing of `Good` compare
the full (id, name) field tuple: `g1 = g2` iff both the ids and the names
agree; in particular two `Good`s with distinct ids are never equal. -/
theorem C6_good_equality (g1 g2 : Good) :
    (g1 = g2 ↔ g1.id = g2.id ∧ g1.name = g2.name)
    ∧ (goodHashData g1 = goodHashData g2 ↔ g1.id = g2.id ∧ g1.name = g2.name)
    ∧ (g1.id ≠ g2.id → g1 ≠ g2) := by
  refine ⟨⟨fun h => ⟨congrArg Good.id h, congrArg Good.name h⟩, ?_⟩,
    by simp [goodHashData, Prod.ext_iff],
    fun hne heq => hne (congrArg Good.id heq)⟩
  rintro ⟨h1, h2⟩
  cases g1
  cases g2
  cases h1
  cases h2
  rfl

/-! ## C7: feasibility is monotone in epsilon -/

/-- C7: `verify_feasibility` is monotone in the tolerance: if the allocation
passes at `e1 ≤ e2` then it passes at `e2`. -/
theorem C7_feasibility_monotone (alloc : Allocation) (goods : List Good)
    (e1 e2 : ℚ) (h0 : 0 ≤ e1) (h12 : e1 ≤ e2)
    (h : (BRACEMechanism.mk e1).verify_feasibility alloc goods = true) :
    (BRACEMechanism.mk e2).verify_feasibility alloc goods = true := by
  simp only [BRACEMechanism.verify_feasibility, List.all_eq_true,
    Bool.not_eq_true', decide_eq_false_iff_not, not_lt] at h ⊢
  intro g hg
  exact le_trans (h g hg) (by linarith)

/-- C7 witness: the monotonicity theorem applied at a concrete input. -/
theorem C7_feasibility_monotone_witness :
    (BRACEMechanism.mk 1).verify_feasibility ⟨[]⟩ [] = true :=
  C7_feasibility_monotone ⟨[]⟩ [] 0 1 le_rfl (by norm_num) rfl

/-! ## C10: `verify_feasibility` inspects only the listed goods -/

/-- C10: `verify_feasibility` reads the allocation only through the occupancy
counts of the goods in its `goods` argument: it passes iff every listed good's
count is within `1 + epsilon`, and any two allocations agreeing on those
counts get the same verdict — a good occurring in bundles but absent from
`goods` can never make it fail. -/
theorem C10_feasibility_frame (eps : ℚ) (alloc alloc2 : Allocation)
    (goods : List Good) :
    ((BRACEMechanism.mk eps).verify_feasibility alloc goods = true ↔
      ∀ g ∈ goods, (goodCount alloc g : ℚ) ≤ 1 + eps)
    ∧ ((∀ g ∈ goods, goodCount alloc g = goodCount alloc2 g) →
      (BRACEMechanism.mk eps).verify_feasibility alloc goods =
        (BRACEMechanism.mk eps).verify_feasibility alloc2 goods) := by
  constructor
  · simp only [BRACEMechanism.verify_feasibility, List.all_eq_true,
      Bool.not_eq_true', decide_eq_false_iff_not, not_lt]
  · intro h
    simp only [BRACEMechanism.verify_feasibility]
    induction goods with
    | nil => rfl
    | cons g gs ih =>
      simp only [List.all_cons]
      rw [h g (List.mem_cons_self _ _),
        ih fun g2 hg2 => h g2 (List.mem_cons_of_mem _ hg2)]

/-! ## C9: duplicate registration under one canonical key -/

theorem preference_key_congr (a : Agent) (b1 b2 : Bundle)
    (h : bundleKey b1 = bundleKey b2) : a.preference b1 = a.preference b2 := by
  unfold Agent.preference
  rw [h]

theorem bundle_price_key_congr (p : PriceVector) (b1 b2 : Bundle)
    (h : bundleKey b1 = bundleKey b2) :
    p.bundle_price b1 = p.bundle_price b2 := by
  have hkey : sortStrings (b1.map Good.id) = sortStrings (b2.map Good.id) := h
  have hperm : (b1.map Good.id).Perm (b2.map Good.id) := by
    have h1 := (sortStrings_perm (b1.map Good.id)).symm
    rw [hkey] at h1
    exact h1.trans (sortStrings_perm _)
  unfold PriceVector.bundle_price
  have e1 : (b1.map fun g => p.get_price g.id)
      = (b1.map Good.id).map p.get_price := by rw [List.map_map]; rfl
  have e2 : (b2.map fun g => p.get_price g.id)
      = (b2.map Good.id).map p.get_price := by rw [List.map_map]; rfl
  rw [e1, e2]
  exact (hperm.map p.get_price).sum_eq

theorem net_utility_key_congr (p : PriceVector) (a : Agent) (b1 b2 : Bundle)
    (h : bundleKey b1 = bundleKey b2) :
    p.net_utility a b1 = p.net_utility a b2 := by
  unfold PriceVector.net_utility
  rw [preference_key_congr a b1 b2 h, bundle_price_key_congr p b1 b2 h]

theorem absQ_zero : absQ 0 = 0 := by simp [absQ]

theorem demandTol_pos : (0 : ℚ) < demandTol := by norm_num [demandTol]

/-- C9: registering two bundles with the same canonical key overwrites the
stored preference value with the second call's value, yet both registrations
stay in `preference_bundles`, and `demand_set` then returns the (semantically
identical) bundle twice. -/
theorem C9_duplicate_registration (i : String) (e : Bundle) (b1 b2 : Bundle)
    (v1 v2 : ℚ) (p : PriceVector) (hkey : bundleKey b1 = bundleKey b2) :
    (((Agent.new i e).add_preference b1 v1).add_preference b2 v2).preference b1
      = v2
    ∧ (((Agent.new i e).add_preference b1 v1).add_preference b2 v2).preference b2
      = v2
    ∧ (((Agent.new i e).add_preference b1 v1).add_preference b2
        v2).preference_bundles = [b1, b2]
    ∧ p.demand_set (((Agent.new i e).add_preference b1 v1).add_preference b2 v2)
      = [b1, b2] := by
  set a := ((Agent.new i e).add_preference b1 v1).add_preference b2 v2 with ha
  have hprefs : a.preferences = [(bundleKey b2, v2)] := by
    simp [ha, Agent.add_preference, Agent.new, insertA, hkey]
  have hpref2 : a.preference b2 = v2 := by
    unfold Agent.preference
    rw [hprefs]
    simp [lookupA]
  have hpref1 : a.preference b1 = v2 := by
    rw [preference_key_congr a b1 b2 hkey]
    exact hpref2
  have hbundles : a.bundles = [b1, b2] := by
    simp [ha, Agent.add_preference, Agent.new]
  have hu : p.net_utility a b1 = p.net_utility a b2 :=
    net_utility_key_congr p a b1 b2 hkey
  refine ⟨hpref1, hpref2, by simp [Agent.preference_bundles, hbundles], ?_⟩
  unfold PriceVector.demand_set
  rw [hbundles]
  simp only [List.foldl_cons, List.foldl_nil]
  have hstep1 : demandStep p a (none, []) b1 = (some (p.net_utility a b1), [b1]) :=
    rfl
  rw [hstep1]
  unfold demandStep
  simp only [hu]
  rw [if_neg (lt_irrefl _), sub_self, absQ_zero, if_pos demandTol_pos]
  rfl

/-- C9 witness: two concrete bundles over the good id "A" differing only in
the display name, registered with values 3 then 7. -/
theorem C9_duplicate_registration_witness :
    (((Agent.new "x" []).add_preference [⟨"A", "n1"⟩] 3).add_preference
        [⟨"A", "n2"⟩] 7).preference [⟨"A", "n1"⟩] = 7
    ∧ (((Agent.new "x" []).add_preference [⟨"A", "n1"⟩] 3).add_preference
        [⟨"A", "n2"⟩] 7).preference [⟨"A", "n2"⟩] = 7
    ∧ (((Agent.new "x" []).add_preference [⟨"A", "n1"⟩] 3).add_preference
        [⟨"A", "n2"⟩] 7).preference_bundles = [[⟨"A", "n1"⟩], [⟨"A", "n2"⟩]]
    ∧ PriceVector.new.demand_set (((Agent.new "x" []).add_preference
        [⟨"A", "n1"⟩] 3).add_preference [⟨"A", "n2"⟩] 7)
        = [[⟨"A", "n1"⟩], [⟨"A", "n2"⟩]] :=
  C9_duplicate_registration "x" [] [⟨"A", "n1"⟩] [⟨"A", "n2"⟩] 3 7
    PriceVector.new (by decide)

/-! ## C4: the price solver never lowers prices and keeps them non-negative -/

theorem get_price_set_price_self (p : PriceVector) (k : String) (v : ℚ) :
    (p.set_price k v).get_price k = v := by
  unfold PriceVector.set_price PriceVector.get_price
  rw [lookupA_insertA_self]
  rfl

theorem get_price_set_price_ne (p : PriceVector) (k k2 : String) (v : ℚ)
    (h : k2 ≠ k) : (p.set_price k v).get_price k2 = p.get_price k2 := by
  unfold PriceVector.set_price PriceVector.get_price
  rw [lookupA_insertA_ne _ _ _ _ h]

theorem lookupA_mem {κ β : Type} [DecidableEq κ] (m : List (κ × β)) (k : κ)
    (v : β) (h : lookupA m k = some v) : ∃ kv ∈ m, kv.2 = v := by
  induction m with
  | nil => simp [lookupA] at h
  | cons kv rest ih =>
    by_cases hk : kv.1 = k
    · simp only [lookupA, if_pos hk, Option.some.injEq] at h
      exact ⟨kv, List.mem_cons_self _ _, h⟩
    · simp only [lookupA, if_neg hk] at h
      obtain ⟨kv2, hm, he⟩ := ih h
      exact ⟨kv2, List.mem_cons_of_mem _ hm, he⟩

theorem get_price_nonneg (p : PriceVector)
    (h : ∀ kv ∈ p.prices, 0 ≤ kv.2) (k : String) : 0 ≤ p.get_price k := by
  unfold PriceVector.get_price
  cases hl : lookupA p.prices k with
  | none => simp
  | some v =>
    obtain ⟨kv, hm, he⟩ := lookupA_mem p.prices k v hl
    simpa [he] using h kv hm

theorem set_price_nonneg (p : PriceVector) (k : String) (v : ℚ)
    (hp : ∀ kv ∈ p.prices, 0 ≤ kv.2) (hv : 0 ≤ v) :
    ∀ kv ∈ (p.set_price k v).prices, 0 ≤ kv.2 := by
  intro kv hm
  rcases mem_insertA p.prices k v kv hm with he | hmem
  · rw [he]
    exact hv
  · exact hp kv hmem

theorem upsertAddA_nonneg (ch : List (String × ℚ)) (k : String) (v : ℚ)
    (hch : ∀ kv ∈ ch, 0 ≤ kv.2) (hv : 0 ≤ v) :
    ∀ kv ∈ upsertAddA ch k v, 0 ≤ kv.2 := by
  intro kv hm
  rcases mem_upsertAddA ch k v kv hm with ⟨kv2, hmem, he⟩ | he | hmem
  · rw [he]
    exact add_nonneg (hch kv2 hmem) hv
  · rw [he]
    exact hv
  · exact hch kv hmem

theorem step_size_nonneg : (0 : ℚ) ≤ step_size := by norm_num [step_size]

theorem bundleFold_nonneg (b : Bundle) :
    ∀ ch : List (String × ℚ), (∀ kv ∈ ch, 0 ≤ kv.2) →
    ∀ kv ∈ b.foldl (fun ch g => upsertAddA ch g.id step_size) ch, 0 ≤ kv.2 := by
  induction b with
  | nil => intro ch hch; exact hch
  | cons g gs ih =>
    intro ch hch
    exact ih _ (upsertAddA_nonneg ch g.id step_size hch step_size_nonneg)

theorem roundChanges_nonneg (agents : List Agent) (alloc : Allocation)
    (prices : PriceVector) :
    ∀ kv ∈ roundChanges agents alloc prices, 0 ≤ kv.2 := by
  unfold roundChanges
  suffices h : ∀ (ags : List Agent) (ch : List (String × ℚ)),
      (∀ kv ∈ ch, 0 ≤ kv.2) →
      ∀ kv ∈ ags.foldl
        (fun changes a =>
          match alloc.get_bundle a.id with
          | none => changes
          | some allocated =>
            let demand := prices.demand_set a
            let in_demand := demand.any fun b =>
              b.length == allocated.length && b.all fun g => decide (g ∈ allocated)
            if in_demand then changes
            else allocated.foldl (fun ch g => upsertAddA ch g.id step_size) changes)
        ch, 0 ≤ kv.2 by
    exact h agents [] (by simp)
  intro ags
  induction ags with
  | nil => intro ch hch; exact hch
  | cons a rest ih =>
    intro ch hch
    simp only [List.foldl_cons]
    cases hb : alloc.get_bundle a.id with
    | none => exact ih ch hch
    | some allocated =>
      by_cases hd : (prices.demand_set a).any (fun b =>
          b.length == allocated.length && b.all fun g => decide (g ∈ allocated))
      · simp only [hd]
        exact ih ch hch
      · simp only [hd]
        exact ih _ (bundleFold_nonneg allocated ch hch)

theorem applyChanges_monotone (ch : List (String × ℚ))
    (hch : ∀ kv ∈ ch, 0 ≤ kv.2) :
    ∀ (p : PriceVector) (k : String),
      p.get_price k ≤ (applyChanges p ch).get_price k := by
  induction ch with
  | nil => intro p k; exact le_rfl
  | cons kv rest ih =>
    intro p k
    have hrest : ∀ kv2 ∈ rest, 0 ≤ kv2.2 :=
      fun kv2 hm => hch kv2 (List.mem_cons_of_mem _ hm)
    have hstep : p.get_price k ≤
        (p.set_price kv.1 (p.get_price kv.1 + kv.2)).get_price k := by
      by_cases hk : k = kv.1
      · subst hk
        rw [get_price_set_price_self]
        have := hch kv (List.mem_cons_self _ _)
        linarith
      · rw [get_price_set_price_ne _ _ _ _ hk]
    exact le_trans hstep (ih hrest _ k)

theorem applyChanges_nonneg (ch : List (String × ℚ))
    (hch : ∀ kv ∈ ch, 0 ≤ kv.2) :
    ∀ p : PriceVector, (∀ kv ∈ p.prices, 0 ≤ kv.2) →
      ∀ kv ∈ (applyChanges p ch).prices, 0 ≤ kv.2 := by
  induction ch with
  | nil => intro p hp; exact hp
  | cons kv rest ih =>
    intro p hp
    have hrest : ∀ kv2 ∈ rest, 0 ≤ kv2.2 :=
      fun kv2 hm => hch kv2 (List.mem_cons_of_mem _ hm)
    exact ih hrest _ (set_price_nonneg p kv.1 _ hp
      (add_nonneg (get_price_nonneg p hp kv.1) (hch kv (List.mem_cons_self _ _))))

theorem applyChanges_isSome (ch : List (String × ℚ)) :
    ∀ (p : PriceVector) (k : String), (lookupA p.prices k).isSome = true →
      (lookupA (applyChanges p ch).prices k).isSome = true := by
  induction ch with
  | nil => intro p k h; exact h
  | cons kv rest ih =>
    intro p k h
    exact ih _ k (isSome_lookupA_insertA p.prices kv.1 k _ h)

theorem cepLoop_nonneg (agents : List Agent) (alloc : Allocation) (eps : ℚ) :
    ∀ (n : Nat) (p : PriceVector), (∀ kv ∈ p.prices, 0 ≤ kv.2) →
      ∀ kv ∈ (cepLoop agents alloc eps n p).prices, 0 ≤ kv.2 := by
  intro n
  induction n with
  | zero => intro p hp; exact hp
  | succ n ih =>
    intro p hp
    unfold cepLoop
    by_cases hc : maxChange (roundChanges agents alloc p) < eps
    · simp only [if_pos hc]
      exact hp
    · simp only [if_neg hc]
      exact ih _ (applyChanges_nonneg _ (roundChanges_nonneg agents alloc p) p hp)

theorem cepLoop_isSome (agents : List Agent) (alloc : Allocation) (eps : ℚ) :
    ∀ (n : Nat) (p : PriceVector) (k : String),
      (lookupA p.prices k).isSome = true →
      (lookupA (cepLoop agents alloc eps n p).prices k).isSome = true := by
  intro n
  induction n with
  | zero => intro p k h; exact h
  | succ n ih =>
    intro p k h
    unfold cepLoop
    by_cases hc : maxChange (roundChanges agents alloc p) < eps
    · simp only [if_pos hc]
      exact h
    · simp only [if_neg hc]
      exact ih _ k (applyChanges_isSome _ p k h)

theorem zeroPricesFold_nonneg (goods : List Good) :
    ∀ p : PriceVector, (∀ kv ∈ p.prices, 0 ≤ kv.2) →
      ∀ kv ∈ (goods.foldl (fun pr g => pr.set_price g.id 0) p).prices, 0 ≤ kv.2 := by
  induction goods with
  | nil => intro p hp; exact hp
  | cons g gs ih =>
    intro p hp
    exact ih _ (set_price_nonneg p g.id 0 hp le_rfl)

theorem zeroPricesFold_isSome (goods : List Good) :
    ∀ (p : PriceVector) (k : String), (lookupA p.prices k).isSome = true →
      (lookupA (goods.foldl (fun pr g => pr.set_price g.id 0) p).prices
        k).isSome = true := by
  induction goods with
  | nil => intro p k h; exact h
  | cons g gs ih =>
    intro p k h
    exact ih _ k (isSome_lookupA_insertA p.prices g.id k _ h)

theorem zeroPricesFold_lookup (goods : List Good) :
    ∀ (p : PriceVector) (g : Good), g ∈ goods →
      (lookupA (goods.foldl (fun pr g => pr.set_price g.id 0) p).prices
        g.id).isSome = true := by
  induction goods with
  | nil =>
    intro p g hg
    cases hg
  | cons g2 gs ih =>
    intro p g hg
    rcases List.mem_cons.mp hg with he | hm
    · subst he
      simp only [List.foldl_cons]
      apply zeroPricesFold_isSome
      rw [show (p.set_price g.id 0).prices = insertA p.prices g.id 0 from rfl,
        lookupA_insertA_self]
      rfl
    · simp only [List.foldl_cons]
      exact ih _ g hm

theorem zeroPricesFold_values (goods : List Good) :
    ∀ p : PriceVector, (∀ kv ∈ p.prices, kv.2 = 0) →
      ∀ kv ∈ (goods.foldl (fun pr g => pr.set_price g.id 0) p).prices,
        kv.2 = 0 := by
  induction goods with
  | nil => intro p hp; exact hp
  | cons g gs ih =>
    intro p hp
    apply ih
    intro kv hm
    rcases mem_insertA p.prices g.id 0 kv hm with he | hmem
    · rw [he]
    · exact hp kv hmem

theorem zeroPrices_isSome (goods : List Good) (g : Good) (hg : g ∈ goods) :
    (lookupA (zeroPrices goods).prices g.id).isSome = true :=
  zeroPricesFold_lookup goods PriceVector.new g hg

theorem zeroPrices_lookup (goods : List Good) (g : Good) (hg : g ∈ goods) :
    lookupA (zeroPrices goods).prices g.id = some 0 := by
  have hs := zeroPrices_isSome goods g hg
  cases hl : lookupA (zeroPrices goods).prices g.id with
  | none => rw [hl] at hs; cases hs
  | some v =>
    obtain ⟨kv, hm, he⟩ := lookupA_mem _ _ _ hl
    have hz : kv.2 = 0 :=
      zeroPricesFold_values goods PriceVector.new (by simp [PriceVector.new]) kv hm
    rw [← he, hz]

/-- C4: during `compute_equilibrium_prices` one adjustment round never lowers
any good's price; every entry of the returned price vector is non-negative;
and every good of the input list has an entry in the returned vector. -/
theorem C4_price_solver_invariants (agents : List Agent) (goods : List Good)
    (alloc : Allocation) (eps : ℚ) :
    (∀ (pr : PriceVector) (gid : String),
      pr.get_price gid ≤
        (applyChanges pr (roundChanges agents alloc pr)).get_price gid)
    ∧ (∀ kv ∈ (compute_equilibrium_prices agents goods alloc eps).prices,
        0 ≤ kv.2)
    ∧ (∀ g ∈ goods,
        (lookupA (compute_equilibrium_prices agents goods alloc eps).prices
          g.id).isSome = true) := by
  refine ⟨?_, ?_, ?_⟩
  · intro pr gid
    exact applyChanges_monotone (roundChanges agents alloc pr)
      (roundChanges_nonneg agents alloc pr) pr gid
  · intro kv hm
    exact cepLoop_nonneg agents alloc eps 1000 (zeroPrices goods)
      (fun kv2 hm2 => by
        have := zeroPricesFold_values goods PriceVector.new
          (by simp [PriceVector.new]) kv2 hm2
        rw [this]) kv hm
  · intro g hg
    exact cepLoop_isSome agents alloc eps 1000 (zeroPrices goods) g.id
      (zeroPrices_isSome goods g hg)

/-! ## C3: degenerate inputs -/

theorem cepLoop_no_agents (alloc : Allocation) (eps : ℚ) :
    ∀ (n : Nat) (p : PriceVector), cepLoop [] alloc eps n p = p := by
  intro n
  induction n with
  | zero => intro p; rfl
  | succ n ih =>
    intro p
    unfold cepLoop
    by_cases hc : maxChange (roundChanges [] alloc p) < eps
    · simp only [if_pos hc]
    · simp only [if_neg hc]
      exact ih _

/-- C3 (amended): for an *empty agent sequence* and non-negative epsilon,
`run` returns the empty (identity) allocation, price `0.0` for every listed
good, and all three property predicates hold. -/
theorem C3_empty_agents (goods : List Good) (eps : ℚ) (h : 0 ≤ eps) :
    (CombinatorialAuction.new [] goods eps).run.allocation = Allocation.new
    ∧ (∀ g ∈ goods,
        lookupA (CombinatorialAuction.new [] goods eps).run.prices g.id = some 0)
    ∧ (CombinatorialAuction.new [] goods eps).run.is_feasible = true
    ∧ (CombinatorialAuction.new [] goods eps).run.is_individually_rational = true
    ∧ (CombinatorialAuction.new [] goods eps).run.is_ordinal_efficient = true := by
  have hca : (BRACEMechanism.mk eps).compute_allocation [] goods
      = (Allocation.new,
        compute_equilibrium_prices [] goods Allocation.new eps) := rfl
  refine ⟨?_, ?_, ?_, rfl, rfl⟩
  · show ((BRACEMechanism.mk eps).compute_allocation [] goods).1 = Allocation.new
    rw [hca]
  · intro g hg
    show lookupA ((BRACEMechanism.mk eps).compute_allocation []
      goods).2.prices g.id = some 0
    rw [hca]
    show lookupA (compute_equilibrium_prices [] goods Allocation.new eps).prices
      g.id = some 0
    unfold compute_equilibrium_prices
    rw [cepLoop_no_agents]
    exact zeroPrices_lookup goods g hg
  · show (BRACEMechanism.mk eps).verify_feasibility
      ((BRACEMechanism.mk eps).compute_allocation [] goods).1 goods = true
    rw [hca]
    simp only [BRACEMechanism.verify_feasibility, List.all_eq_true,
      Bool.not_eq_true', decide_eq_false_iff_not, not_lt]
    intro g hg
    show (1 : ℚ) + eps ≥ (goodCount Allocation.new g : ℚ)
    have : goodCount Allocation.new g = 0 := rfl
    rw [this]
    push_cast
    linarith

/-- C3 witness: the empty-agents theorem applied to one good and
epsilon 0.01. -/
theorem C3_empty_agents_witness :
    (CombinatorialAuction.new [] [gA] (1 / 100)).run.allocation = Allocation.new
    ∧ (∀ g ∈ [gA],
        lookupA (CombinatorialAuction.new [] [gA] (1 / 100)).run.prices g.id
          = some 0)
    ∧ (CombinatorialAuction.new [] [gA] (1 / 100)).run.is_feasible = true
    ∧ (CombinatorialAuction.new [] [gA]
        (1 / 100)).run.is_individually_rational = true
    ∧ (CombinatorialAuction.new [] [gA] (1 / 100)).run.is_ordinal_efficient
      = true :=
  C3_empty_agents [gA] (1 / 100) (by norm_num)

/-- C3 (counterexample): two degenerate inputs on which `run` does *not*
return the trivial results the claim asserts.  With an empty goods list (but
trading agents) the returned allocation is not the identity: agent "1" ends
with `[gB]`, not its endowment `[gA]`.  With agents whose catalogs are all
empty but whose endowments overlap, `is_feasible` is `false`. -/
theorem C3_degenerate_counterexample :
    auctionNoGoods.run.allocation.get_bundle "1" = some [gB]
    ∧ swapA.endowment = [gA]
    ∧ auctionNoGoods.run.allocation.get_bundle "1" ≠ some swapA.endowment
    ∧ auctionEmptyCat.run.is_feasible = false := by
  refine ⟨by decide, by decide, by decide, ?_⟩
  have halloc : (auctionEmptyCat.mechanism.compute_allocation
      auctionEmptyCat.agents auctionEmptyCat.goods).1
      = Allocation.mk [("1", [gA]), ("2", [gA])] := by decide
  show auctionEmptyCat.mechanism.verify_feasibility
    (auctionEmptyCat.mechanism.compute_allocation auctionEmptyCat.agents
      auctionEmptyCat.goods).1 auctionEmptyCat.goods = false
  rw [halloc]
  norm_num [String.reduceEq, auctionEmptyCat, CombinatorialAuction.new,
    BRACEMechanism.verify_feasibility, goodCount, gA, List.all, insertA,
    lookupA]

/-! ## C1 and C5: pairwise-distinct ids, trades, and Pareto checks -/

theorem pairwise_id_inj (agents : List Agent)
    (h : agents.Pairwise fun x y => x.id ≠ y.id) :
    ∀ a b, a ∈ agents → b ∈ agents → a.id = b.id → a = b := by
  induction agents with
  | nil =>
    intro a b ha
    cases ha
  | cons c rest ih =>
    have hc := List.pairwise_cons.mp h
    intro a b ha hb he
    rcases List.mem_cons.mp ha with rfl | ha2
    · rcases List.mem_cons.mp hb with rfl | hb2
      · rfl
      · exact absurd he (hc.1 b hb2)
    · rcases List.mem_cons.mp hb with rfl | hb2
      · exact absurd he.symm (hc.1 a ha2)
      · exact ih hc.2 a b ha2 hb2 he

theorem agentPairs_mem (l : List Agent) (pq : Agent × Agent)
    (h : pq ∈ agentPairs l) : pq.1 ∈ l ∧ pq.2 ∈ l := by
  induction l with
  | nil => cases h
  | cons a rest ih =>
    unfold agentPairs at h
    rcases List.mem_append.mp h with h1 | h2
    · obtain ⟨b, hb, he⟩ := List.mem_map.mp h1
      rw [← he]
      exact ⟨List.mem_cons_self _ _, List.mem_cons_of_mem _ hb⟩
    · obtain ⟨hx, hy⟩ := ih h2
      exact ⟨List.mem_cons_of_mem _ hx, List.mem_cons_of_mem _ hy⟩

theorem agentPairs_rel {R : Agent → Agent → Prop} (l : List Agent)
    (h : l.Pairwise R) (pq : Agent × Agent) (hm : pq ∈ agentPairs l) :
    R pq.1 pq.2 := by
  induction l with
  | nil => cases hm
  | cons a rest ih =>
    have hc := List.pairwise_cons.mp h
    unfold agentPairs at hm
    rcases List.mem_append.mp hm with h1 | h2
    · obtain ⟨b, hb, he⟩ := List.mem_map.mp h1
      rw [← he]
      exact hc.1 b hb
    · exact ih hc.2 h2

theorem get_bundle_assign_self (al : Allocation) (k : String) (b : Bundle) :
    (al.assign k b).get_bundle k = some b := by
  unfold Allocation.assign Allocation.get_bundle
  exact lookupA_insertA_self _ _ _

theorem get_bundle_assign_ne (al : Allocation) (k k2 : String) (b : Bundle)
    (h : k2 ≠ k) : (al.assign k b).get_bundle k2 = al.get_bundle k2 := by
  unfold Allocation.assign Allocation.get_bundle
  exact lookupA_insertA_ne _ _ _ _ h

theorem try_trade_eq_some (m : BRACEMechanism) (x y : Agent) (al : Allocation)
    (pr : PriceVector) (na : Allocation)
    (h : m.try_trade x y al pr = some na) :
    ∃ b1 b2, al.get_bundle x.id = some b1 ∧ al.get_bundle y.id = some b2
      ∧ x.prefers b2 b1 ∧ y.prefers b1 b2
      ∧ na = (al.assign x.id b2).assign y.id b1 := by
  unfold BRACEMechanism.try_trade at h
  cases hx : al.get_bundle x.id with
  | none =>
    rw [hx] at h
    cases h
  | some b1 =>
    cases hy : al.get_bundle y.id with
    | none =>
      rw [hx, hy] at h
      cases h
    | some b2 =>
      rw [hx, hy] at h
      dsimp only at h
      by_cases hc : x.prefers b2 b1 ∧ y.prefers b1 b2
      · refine ⟨b1, b2, rfl, rfl, hc.1, hc.2, ?_⟩
        rw [if_pos hc] at h
        injection h with h2
        exact h2.symm
      · rw [if_neg hc] at h
        cases h

theorem trade_preserves_ir (m : BRACEMechanism) (agents : List Agent)
    (hpw : agents.Pairwise fun a b => a.id ≠ b.id)
    (x y : Agent) (hx : x ∈ agents) (hy : y ∈ agents) (hxy : x.id ≠ y.id)
    (al na : Allocation) (pr : PriceVector)
    (ht : m.try_trade x y al pr = some na)
    (hIR : ∀ a ∈ agents, ∃ b, al.get_bundle a.id = some b
      ∧ a.preference a.endowment ≤ a.preference b) :
    ∀ a ∈ agents, ∃ b, na.get_bundle a.id = some b
      ∧ a.preference a.endowment ≤ a.preference b := by
  obtain ⟨b1, b2, h1, h2, hp1, hp2, hna⟩ := try_trade_eq_some m x y al pr na ht
  intro a ha
  by_cases hay : a.id = y.id
  · have hae : a = y := pairwise_id_inj agents hpw a y ha hy hay
    subst hae
    obtain ⟨b, hb, hpe⟩ := hIR a ha
    have hbb : b = b2 := by
      rw [hb] at h2
      injection h2 with h3
    refine ⟨b1, ?_, ?_⟩
    · rw [hna]
      exact get_bundle_assign_self _ _ _
    · exact le_of_lt (lt_of_le_of_lt (hbb ▸ hpe) hp2)
  · by_cases hax : a.id = x.id
    · have hae : a = x := pairwise_id_inj agents hpw a x ha hx hax
      subst hae
      obtain ⟨b, hb, hpe⟩ := hIR a ha
      have hbb : b = b1 := by
        rw [hb] at h1
        injection h1 with h3
      refine ⟨b2, ?_, ?_⟩
      · rw [hna, get_bundle_assign_ne _ _ _ _ hay]
        exact get_bundle_assign_self _ _ _
      · exact le_of_lt (lt_of_le_of_lt (hbb ▸ hpe) hp1)
    · obtain ⟨b, hb, hpe⟩ := hIR a ha
      refine ⟨b, ?_, hpe⟩
      rw [hna, get_bundle_assign_ne _ _ _ _ hay, get_bundle_assign_ne _ _ _ _ hax]
      exact hb

theorem improve_step_preserves_ir (m : BRACEMechanism) (agents : List Agent)
    (pr : PriceVector) (hpw : agents.Pairwise fun a b => a.id ≠ b.id)
    (st : Allocation × Bool) (pq : Agent × Agent)
    (hmem : pq ∈ agentPairs agents)
    (hst : ∀ a ∈ agents, ∃ b, st.1.get_bundle a.id = some b
      ∧ a.preference a.endowment ≤ a.preference b) :
    ∀ a ∈ agents, ∃ b,
      (match m.try_trade pq.1 pq.2 st.1 pr with
        | some newAlloc =>
          if m.is_pareto_improving agents st.1 newAlloc then (newAlloc, true)
          else st
        | none => st).1.get_bundle a.id = some b
      ∧ a.preference a.endowment ≤ a.preference b := by
  cases htt : m.try_trade pq.1 pq.2 st.1 pr with
  | none => exact hst
  | some na =>
    dsimp only
    by_cases hpi : m.is_pareto_improving agents st.1 na = true
    · rw [if_pos hpi]
      exact trade_preserves_ir m agents hpw pq.1 pq.2
        (agentPairs_mem agents pq hmem).1 (agentPairs_mem agents pq hmem).2
        (agentPairs_rel agents hpw pq hmem) st.1 na pr htt hst
    · rw [if_neg hpi]
      exact hst

theorem improve_foldl_preserves_ir (m : BRACEMechanism) (agents : List Agent)
    (pr : PriceVector) (hpw : agents.Pairwise fun a b => a.id ≠ b.id) :
    ∀ (ps : List (Agent × Agent)), (∀ pq ∈ ps, pq ∈ agentPairs agents) →
    ∀ st : Allocation × Bool,
    (∀ a ∈ agents, ∃ b, st.1.get_bundle a.id = some b
      ∧ a.preference a.endowment ≤ a.preference b) →
    ∀ a ∈ agents, ∃ b,
      (ps.foldl
        (fun st pq =>
          match m.try_trade pq.1 pq.2 st.1 pr with
          | some newAlloc =>
            if m.is_pareto_improving agents st.1 newAlloc then (newAlloc, true)
            else st
          | none => st)
        st).1.get_bundle a.id = some b
      ∧ a.preference a.endowment ≤ a.preference b := by
  intro ps
  induction ps with
  | nil =>
    intro hps st hst
    exact hst
  | cons pq rest ih =>
    intro hps st hst
    simp only [List.foldl_cons]
    exact ih (fun q hq => hps q (List.mem_cons_of_mem _ hq)) _
      (improve_step_preserves_ir m agents pr hpw st pq
        (hps pq (List.mem_cons_self _ _)) hst)

theorem improve_allocation_preserves_ir (m : BRACEMechanism)
    (agents : List Agent) (goods : List Good) (pr : PriceVector)
    (hpw : agents.Pairwise fun a b => a.id ≠ b.id) (al : Allocation)
    (hal : ∀ a ∈ agents, ∃ b, al.get_bundle a.id = some b
      ∧ a.preference a.endowment ≤ a.preference b) :
    ∀ a ∈ agents, ∃ b,
      (m.improve_allocation agents goods al pr).1.get_bundle a.id = some b
      ∧ a.preference a.endowment ≤ a.preference b := by
  unfold BRACEMechanism.improve_allocation
  exact improve_foldl_preserves_ir m agents pr hpw (agentPairs agents)
    (fun pq hm => hm) (al, false) hal

theorem improveLoop_preserves_ir (m : BRACEMechanism) (agents : List Agent)
    (goods : List Good) (pr : PriceVector)
    (hpw : agents.Pairwise fun a b => a.id ≠ b.id) :
    ∀ (n : Nat) (al : Allocation),
    (∀ a ∈ agents, ∃ b, al.get_bundle a.id = some b
      ∧ a.preference a.endowment ≤ a.preference b) →
    ∀ a ∈ agents, ∃ b,
      (improveLoop m agents goods pr n al).get_bundle a.id = some b
      ∧ a.preference a.endowment ≤ a.preference b := by
  intro n
  induction n with
  | zero =>
    intro al hal
    exact hal
  | succ n ih =>
    intro al hal
    have hstep : improveLoop m agents goods pr (n + 1) al
        = if (m.improve_allocation agents goods al pr).2
            then improveLoop m agents goods pr n
              (m.improve_allocation agents goods al pr).1
            else (m.improve_allocation agents goods al pr).1 := rfl
    rw [hstep]
    by_cases hi : (m.improve_allocation agents goods al pr).2 = true
    · rw [if_pos hi]
      exact ih _ (improve_allocation_preserves_ir m agents goods pr hpw al hal)
    · rw [if_neg hi]
      exact improve_allocation_preserves_ir m agents goods pr hpw al hal

theorem foldl_assign_notmem (agents : List Agent) :
    ∀ (al : Allocation) (k : String), (∀ b ∈ agents, k ≠ b.id) →
    (agents.foldl (fun al2 ag => al2.assign ag.id ag.endowment) al).get_bundle k
      = al.get_bundle k := by
  induction agents with
  | nil =>
    intro al k h
    rfl
  | cons c rest ih =>
    intro al k h
    simp only [List.foldl_cons]
    rw [ih (al.assign c.id c.endowment) k
      (fun b hb => h b (List.mem_cons_of_mem _ hb))]
    exact get_bundle_assign_ne al c.id k c.endowment (h c (List.mem_cons_self _ _))

theorem foldl_assign_get (agents : List Agent) :
    ∀ (al : Allocation) (a : Agent), a ∈ agents →
    (agents.Pairwise fun x y => x.id ≠ y.id) →
    (agents.foldl (fun al2 ag => al2.assign ag.id ag.endowment) al).get_bundle
      a.id = some a.endowment := by
  induction agents with
  | nil =>
    intro al a ha
    cases ha
  | cons c rest ih =>
    intro al a ha hpw
    have hc := List.pairwise_cons.mp hpw
    simp only [List.foldl_cons]
    rcases List.mem_cons.mp ha with rfl | hm
    · rw [foldl_assign_notmem rest _ a.id fun b hb => hc.1 b hb]
      exact get_bundle_assign_self _ _ _
    · exact ih _ a hm hc.2

theorem initialAllocation_get (agents : List Agent)
    (hpw : agents.Pairwise fun a b => a.id ≠ b.id) (a : Agent) (ha : a ∈ agents) :
    (initialAllocation agents).get_bundle a.id = some a.endowment :=
  foldl_assign_get agents Allocation.new a ha hpw

theorem ir_implies_verify (m : BRACEMechanism) (agents : List Agent)
    (al : Allocation)
    (h : ∀ a ∈ agents, ∃ b, al.get_bundle a.id = some b
      ∧ a.preference a.endowment ≤ a.preference b) :
    m.verify_individual_rationality agents al = true := by
  unfold BRACEMechanism.verify_individual_rationality
  rw [List.all_eq_true]
  intro a ha
  obtain ⟨b, hb, hle⟩ := h a ha
  simp only [hb, Bool.not_eq_true', decide_eq_false_iff_not]
  exact not_lt.mpr hle

/-- C1 (counterexample): with two agents sharing the id "x" (the first
endowed with `[gA]` valued 5, the second with `[gB]`), the second
endowment overwrites the first in the initial allocation, no trade fires,
and `verify_individual_rationality` returns `false` on the allocation
`compute_allocation` returns. -/
theorem C1_duplicate_ids_break_ir :
    dup1.id = dup2.id
    ∧ (BRACEMechanism.mk (1 / 100)).verify_individual_rationality [dup1, dup2]
        ((BRACEMechanism.mk (1 / 100)).compute_allocation [dup1, dup2]
          [gA, gB]).1 = false := by
  constructor
  · rfl
  · decide

/-- C1 (amended): for agents with pairwise-distinct ids, the allocation
`compute_allocation` returns gives every agent a bundle it values at least as
much as its endowment, and `verify_individual_rationality` returns `true` on
it. -/
theorem C1_individual_rationality (m : BRACEMechanism) (agents : List Agent)
    (goods : List Good) (hpw : agents.Pairwise fun a b => a.id ≠ b.id) :
    (∀ a ∈ agents, ∃ b,
      (m.compute_allocation agents goods).1.get_bundle a.id = some b
      ∧ a.preference a.endowment ≤ a.preference b)
    ∧ m.verify_individual_rationality agents
        (m.compute_allocation agents goods).1 = true := by
  have hca : (m.compute_allocation agents goods).1
      = improveLoop m agents goods (zeroPrices goods) 100
        (initialAllocation agents) := rfl
  have hinv0 : ∀ a ∈ agents, ∃ b,
      (initialAllocation agents).get_bundle a.id = some b
      ∧ a.preference a.endowment ≤ a.preference b :=
    fun a ha => ⟨a.endowment, initialAllocation_get agents hpw a ha, le_rfl⟩
  have hinv := improveLoop_preserves_ir m agents goods (zeroPrices goods) hpw
    100 (initialAllocation agents) hinv0
  rw [hca]
  exact ⟨hinv, ir_implies_verify m agents _ hinv⟩

/-- C1 witness: the individual-rationality theorem at a concrete one-agent
input. -/
theorem C1_individual_rationality_witness :
    (∀ a ∈ [irW], ∃ b,
      ((BRACEMechanism.mk (1 / 100)).compute_allocation [irW]
        [gA]).1.get_bundle a.id = some b
      ∧ a.preference a.endowment ≤ a.preference b)
    ∧ (BRACEMechanism.mk (1 / 100)).verify_individual_rationality [irW]
        ((BRACEMechanism.mk (1 / 100)).compute_allocation [irW] [gA]).1
      = true :=
  C1_individual_rationality (BRACEMechanism.mk (1 / 100)) [irW] [gA]
    (List.pairwise_singleton _ _)

theorem paretoGo_eq_true (oldA newA : Allocation) :
    ∀ (l : List Agent) (flag : Bool),
    (∀ a ∈ l, ∀ o n, oldA.get_bundle a.id = some o →
      newA.get_bundle a.id = some n → ¬a.prefers o n) →
    (flag = true ∨ ∃ a ∈ l, ∃ o n, oldA.get_bundle a.id = some o
      ∧ newA.get_bundle a.id = some n ∧ a.prefers n o) →
    paretoGo oldA newA l flag = true := by
  intro l
  induction l with
  | nil =>
    intro flag hw hb
    rcases hb with hf | ⟨a, ha, _⟩
    · simpa [paretoGo] using hf
    · cases ha
  | cons a rest ih =>
    intro flag hw hb
    have hwr : ∀ a2 ∈ rest, ∀ o n, oldA.get_bundle a2.id = some o →
        newA.get_bundle a2.id = some n → ¬a2.prefers o n :=
      fun a2 hm => hw a2 (List.mem_cons_of_mem _ hm)
    unfold paretoGo
    cases ho : oldA.get_bundle a.id with
    | none =>
      apply ih flag hwr
      rcases hb with hf | ⟨a2, ha2, o2, n2, ho2, hn2, hp2⟩
      · exact Or.inl hf
      · rcases List.mem_cons.mp ha2 with rfl | hm
        · rw [ho] at ho2
          cases ho2
        · exact Or.inr ⟨a2, hm, o2, n2, ho2, hn2, hp2⟩
    | some o =>
      cases hn : newA.get_bundle a.id with
      | none =>
        apply ih flag hwr
        rcases hb with hf | ⟨a2, ha2, o2, n2, ho2, hn2, hp2⟩
        · exact Or.inl hf
        · rcases List.mem_cons.mp ha2 with rfl | hm
          · rw [hn] at hn2
            cases hn2
          · exact Or.inr ⟨a2, hm, o2, n2, ho2, hn2, hp2⟩
      | some n =>
        dsimp only
        by_cases hnb : a.prefers n o
        · rw [if_pos hnb]
          exact ih true hwr (Or.inl rfl)
        · rw [if_neg hnb]
          by_cases hob : a.prefers o n
          · exact absurd hob (hw a (List.mem_cons_self _ _) o n ho hn)
          · rw [if_neg hob]
            apply ih flag hwr
            rcases hb with hf | ⟨a2, ha2, o2, n2, ho2, hn2, hp2⟩
            · exact Or.inl hf
            · rcases List.mem_cons.mp ha2 with rfl | hm
              · rw [ho] at ho2
                rw [hn] at hn2
                injection ho2 with he1
                injection hn2 with he2
                subst he1
                subst he2
                exact absurd hp2 hnb
              · exact Or.inr ⟨a2, hm, o2, n2, ho2, hn2, hp2⟩

/-- C5 (amended): for agents with pairwise-distinct ids, whenever `try_trade`
accepts a swap for a scanned pair, the `is_pareto_improving` re-check on the
swapped allocation returns `true`. -/
theorem C5_pareto_recheck (m : BRACEMechanism) (agents : List Agent)
    (hpw : agents.Pairwise fun a b => a.id ≠ b.id)
    (al na : Allocation) (pr : PriceVector) (pq : Agent × Agent)
    (hmem : pq ∈ agentPairs agents)
    (ht : m.try_trade pq.1 pq.2 al pr = some na) :
    m.is_pareto_improving agents al na = true := by
  obtain ⟨b1, b2, h1, h2, hp1, hp2, hna⟩ :=
    try_trade_eq_some m pq.1 pq.2 al pr na ht
  have hx := (agentPairs_mem agents pq hmem).1
  have hy := (agentPairs_mem agents pq hmem).2
  have hxy : pq.1.id ≠ pq.2.id := agentPairs_rel agents hpw pq hmem
  unfold BRACEMechanism.is_pareto_improving
  apply paretoGo_eq_true
  · intro a ha o n ho hn hwo
    by_cases hay : a.id = pq.2.id
    · have hae : a = pq.2 := pairwise_id_inj agents hpw a pq.2 ha hy hay
      subst hae
      rw [h2] at ho
      injection ho with ho2
      subst ho2
      rw [hna, get_bundle_assign_self] at hn
      injection hn with hn2
      subst hn2
      exact absurd hwo (lt_asymm hp2)
    · by_cases hax : a.id = pq.1.id
      · have hae : a = pq.1 := pairwise_id_inj agents hpw a pq.1 ha hx hax
        subst hae
        rw [h1] at ho
        injection ho with ho2
        subst ho2
        rw [hna, get_bundle_assign_ne _ _ _ _ hxy, get_bundle_assign_self] at hn
        injection hn with hn2
        subst hn2
        exact absurd hwo (lt_asymm hp1)
      · rw [hna, get_bundle_assign_ne _ _ _ _ hay,
          get_bundle_assign_ne _ _ _ _ hax] at hn
        rw [ho] at hn
        injection hn with hn2
        subst hn2
        exact absurd hwo (lt_irrefl _)
  · right
    refine ⟨pq.1, hx, b1, b2, h1, ?_, hp1⟩
    rw [hna, get_bundle_assign_ne _ _ _ _ hxy]
    exact get_bundle_assign_self _ _ _

/-- C5 witness: the re-check theorem at a concrete accepted swap between two
distinct-id agents. -/
theorem C5_pareto_recheck_witness :
    (BRACEMechanism.mk (1 / 100)).is_pareto_improving [tw1, tw2]
      (initialAllocation [tw1, tw2])
      (((initialAllocation [tw1, tw2]).assign "1" [gB]).assign "2" [gA])
      = true :=
  C5_pareto_recheck (BRACEMechanism.mk (1 / 100)) [tw1, tw2] (by decide)
    (initialAllocation [tw1, tw2])
    (((initialAllocation [tw1, tw2]).assign "1" [gB]).assign "2" [gA])
    (zeroPrices [gA, gB]) (tw1, tw2) (by decide) (by decide)

/-- C5 (counterexample): when a third agent shares id "1" with the first,
`try_trade` accepts the swap between the first two agents (it is the pair
`(agents5[0], agents5[1])` of the scan) but the `is_pareto_improving`
re-check on the swapped allocation returns `false`. -/
theorem C5_duplicate_id_breaks_recheck :
    (BRACEMechanism.mk (1 / 100)).try_trade a5x a5y (initialAllocation agents5)
      (zeroPrices [gA, gB])
      = some (((initialAllocation agents5).assign "1" [gB]).assign "2" [gA])
    ∧ (a5x, a5y) ∈ agentPairs agents5
    ∧ a5x.id = a5z.id
    ∧ (BRACEMechanism.mk (1 / 100)).is_pareto_improving agents5
        (initialAllocation agents5)
        (((initialAllocation agents5).assign "1" [gB]).assign "2" [gA])
      = false := by
  refine ⟨by decide, by decide, rfl, by decide⟩

/-! ## C8: worked scenario 1 -/

/-- C8: on the spec's worked scenario (goods A, B; Agent1 endowed {A} with
{A,B}:10, {A}:5; Agent2 endowed {B} with {A,B}:8, {B}:4; epsilon 0.01) the
swap is rejected, the allocation stays at the endowments, and all three
property predicates are `true`. -/
theorem C8_scenario1 :
    auction1.run.allocation.get_bundle "Agent1" = some [gA]
    ∧ auction1.run.allocation.get_bundle "Agent2" = some [gB]
    ∧ auction1.run.is_feasible = true
    ∧ auction1.run.is_individually_rational = true
    ∧ auction1.run.is_ordinal_efficient = true := by
  have halloc : (auction1.mechanism.compute_allocation auction1.agents
      auction1.goods).1 = Allocation.mk [("Agent1", [gA]), ("Agent2", [gB])] := by
    decide
  refine ⟨by decide, by decide, ?_, by decide, by decide⟩
  show auction1.mechanism.verify_feasibility
    (auction1.mechanism.compute_allocation auction1.agents auction1.goods).1
    auction1.goods = true
  rw [halloc]
  norm_num [auction1, CombinatorialAuction.new,
    BRACEMechanism.verify_feasibility, goodCount, gA, gB, List.all, insertA,
    lookupA]
  simp only [String.reduceEq, false_and, if_false]
  norm_num

/-! ## C2: what `demand_set` actually returns -/

theorem demandFold_spec (p : PriceVector) (a : Agent) :
    ∀ (l : List Bundle) (m : ℚ) (d : List Bundle),
    ∃ m2, (l.foldl (demandStep p a) (some m, d)).1 = some m2
      ∧ m ≤ m2
      ∧ (∀ b ∈ l, p.net_utility a b ≤ m2)
      ∧ (m2 = m ∨ ∃ b ∈ l, p.net_utility a b = m2)
      ∧ (∀ b ∈ (l.foldl (demandStep p a) (some m, d)).2,
          (b ∈ d ∧ m2 = m) ∨ (b ∈ l ∧ m2 - demandTol < p.net_utility a b
            ∧ p.net_utility a b ≤ m2))
      ∧ (m2 = m → ∀ b ∈ d, b ∈ (l.foldl (demandStep p a) (some m, d)).2)
      ∧ (∀ b ∈ l, p.net_utility a b = m2 →
          b ∈ (l.foldl (demandStep p a) (some m, d)).2) := by
  intro l
  induction l with
  | nil =>
    intro m d
    refine ⟨m, rfl, le_rfl, by simp, Or.inl rfl, ?_, ?_, by simp⟩
    · intro b hb
      exact Or.inl ⟨hb, rfl⟩
    · intro _ b hb
      exact hb
  | cons c rest ih =>
    intro m d
    simp only [List.foldl_cons]
    by_cases h1 : m < p.net_utility a c
    · have hstep : demandStep p a (some m, d) c
          = (some (p.net_utility a c), [c]) := by
        unfold demandStep
        dsimp only
        rw [if_pos h1]
      rw [hstep]
      obtain ⟨m2, hm2, hle, hmax, hatt, hsound, hkeep, hcompl⟩ :=
        ih (p.net_utility a c) [c]
      refine ⟨m2, hm2, le_trans (le_of_lt h1) hle, ?_, ?_, ?_, ?_, ?_⟩
      · intro b hb
        rcases List.mem_cons.mp hb with rfl | hm3
        · exact hle
        · exact hmax b hm3
      · rcases hatt with he | ⟨b, hb, hub⟩
        · exact Or.inr ⟨c, List.mem_cons_self _ _, he.symm⟩
        · exact Or.inr ⟨b, List.mem_cons_of_mem _ hb, hub⟩
      · intro b hb
        rcases hsound b hb with ⟨hbd, hba⟩ | ⟨hbl, hlo, hhi⟩
        · have hbc : b = c := List.mem_singleton.mp hbd
          subst hbc
          right
          refine ⟨List.mem_cons_self _ _, ?_, ?_⟩
          · rw [hba]
            linarith [demandTol_pos]
          · rw [hba]
        · exact Or.inr ⟨List.mem_cons_of_mem _ hbl, hlo, hhi⟩
      · intro he b hb
        exfalso
        have hlt : m < m2 := lt_of_lt_of_le h1 hle
        rw [he] at hlt
        exact lt_irrefl m hlt
      · intro b hb hub
        rcases List.mem_cons.mp hb with rfl | hm3
        · exact hkeep hub.symm b (List.mem_singleton_self _)
        · exact hcompl b hm3 hub
    · have hc_le : p.net_utility a c ≤ m := not_lt.mp h1
      by_cases h2 : absQ (p.net_utility a c - m) < demandTol
      · have hstep : demandStep p a (some m, d) c = (some m, d ++ [c]) := by
          unfold demandStep
          dsimp only
          rw [if_neg h1, if_pos h2]
        rw [hstep]
        obtain ⟨m2, hm2, hle, hmax, hatt, hsound, hkeep, hcompl⟩ :=
          ih m (d ++ [c])
        have habs : m - p.net_utility a c < demandTol := by
          unfold absQ at h2
          by_cases hneg : p.net_utility a c - m < 0
          · rw [if_pos hneg] at h2
            linarith
          · rw [if_neg hneg] at h2
            linarith
        refine ⟨m2, hm2, hle, ?_, ?_, ?_, ?_, ?_⟩
        · intro b hb
          rcases List.mem_cons.mp hb with rfl | hm3
          · exact le_trans hc_le hle
          · exact hmax b hm3
        · rcases hatt with he | ⟨b, hb, hub⟩
          · exact Or.inl he
          · exact Or.inr ⟨b, List.mem_cons_of_mem _ hb, hub⟩
        · intro b hb
          rcases hsound b hb with ⟨hbd, hba⟩ | ⟨hbl, hlo, hhi⟩
          · rcases List.mem_append.mp hbd with hbd2 | hbc
            · exact Or.inl ⟨hbd2, hba⟩
            · have hbc2 : b = c := List.mem_singleton.mp hbc
              subst hbc2
              right
              refine ⟨List.mem_cons_self _ _, ?_, hba ▸ hc_le⟩
              rw [hba]
              linarith
          · exact Or.inr ⟨List.mem_cons_of_mem _ hbl, hlo, hhi⟩
        · intro he b hb
          exact hkeep he b (List.mem_append.mpr (Or.inl hb))
        · intro b hb hub
          rcases List.mem_cons.mp hb with rfl | hm3
          · have hm2m : m2 = m := le_antisymm (hub ▸ hc_le) hle
            exact hkeep hm2m b (List.mem_append.mpr (Or.inr (List.mem_singleton_self _)))
          · exact hcompl b hm3 hub
      · have hstep : demandStep p a (some m, d) c = (some m, d) := by
          unfold demandStep
          dsimp only
          rw [if_neg h1, if_neg h2]
        rw [hstep]
        obtain ⟨m2, hm2, hle, hmax, hatt, hsound, hkeep, hcompl⟩ := ih m d
        have hc_far : p.net_utility a c ≤ m - demandTol := by
          unfold absQ at h2
          push_neg at h2
          by_cases hneg : p.net_utility a c - m < 0
          · rw [if_pos hneg] at h2
            linarith
          · rw [if_neg hneg] at h2
            linarith [demandTol_pos]
        refine ⟨m2, hm2, hle, ?_, ?_, ?_, hkeep, ?_⟩
        · intro b hb
          rcases List.mem_cons.mp hb with rfl | hm3
          · exact le_trans hc_le hle
          · exact hmax b hm3
        · rcases hatt with he | ⟨b, hb, hub⟩
          · exact Or.inl he
          · exact Or.inr ⟨b, List.mem_cons_of_mem _ hb, hub⟩
        · intro b hb
          rcases hsound b hb with h | ⟨hbl, hlo, hhi⟩
          · exact Or.inl h
          · exact Or.inr ⟨List.mem_cons_of_mem _ hbl, hlo, hhi⟩
        · intro b hb hub
          rcases List.mem_cons.mp hb with rfl | hm3
          · exfalso
            have hlt : p.net_utility a b < m2 := by
              linarith [demandTol_pos, hle, hc_far]
            rw [hub] at hlt
            exact lt_irrefl m2 hlt
          · exact hcompl b hm3 hub

/-- C2 (amended): every bundle `demand_set` returns is a registered bundle
whose net utility is within `1e-9` of the maximum over the catalog, and every
bundle attaining the maximum *exactly* is returned; but (see the
counterexample) a bundle strictly below yet within `1e-9` of the maximum can
be dropped when it is scanned before a later strict improvement, so the
returned set depends on the catalog's scan order. -/
theorem C2_demand_set_spec (p : PriceVector) (a : Agent) :
    (∀ b ∈ p.demand_set a, b ∈ a.preference_bundles
      ∧ ∀ b2 ∈ a.preference_bundles,
        p.net_utility a b2 < p.net_utility a b + demandTol)
    ∧ (∀ b ∈ a.preference_bundles,
        (∀ b2 ∈ a.preference_bundles,
          p.net_utility a b2 ≤ p.net_utility a b) → b ∈ p.demand_set a) := by
  unfold PriceVector.demand_set Agent.preference_bundles
  generalize hl : a.bundles = bl
  cases bl with
  | nil => simp
  | cons c rest =>
    simp only [List.foldl_cons]
    have hstep : demandStep p a (none, []) c
        = (some (p.net_utility a c), [c]) := rfl
    rw [hstep]
    obtain ⟨m2, hm2, hle, hmax, hatt, hsound, hkeep, hcompl⟩ :=
      demandFold_spec p a rest (p.net_utility a c) [c]
    constructor
    · intro b hb
      rcases hsound b hb with ⟨hbd, hba⟩ | ⟨hbl, hlo, hhi⟩
      · have hbc : b = c := List.mem_singleton.mp hbd
        subst hbc
        refine ⟨List.mem_cons_self _ _, ?_⟩
        intro b2 hb2
        rcases List.mem_cons.mp hb2 with rfl | hm3
        · linarith [demandTol_pos]
        · have hb2le := hmax b2 hm3
          rw [hba] at hb2le
          linarith [demandTol_pos]
      · refine ⟨List.mem_cons_of_mem _ hbl, ?_⟩
        intro b2 hb2
        rcases List.mem_cons.mp hb2 with rfl | hm3
        · linarith [hle, hlo]
        · linarith [hmax b2 hm3, hlo]
    · intro b hb hball
      rcases List.mem_cons.mp hb with rfl | hm3
      · have hcm : m2 = p.net_utility a b := by
          rcases hatt with he | ⟨b2, hb2, hub2⟩
          · exact he
          · have h1 := hball b2 (List.mem_cons_of_mem _ hb2)
            rw [hub2] at h1
            exact le_antisymm h1 hle
        exact hkeep hcm b (List.mem_singleton_self _)
      · have hub : p.net_utility a b = m2 := by
          have hb_le := hmax b hm3
          rcases hatt with he | ⟨b2, hb2, hub2⟩
          · have h1 := hball c (List.mem_cons_self _ _)
            rw [← he] at h1
            exact le_antisymm hb_le h1
          · have h1 := hball b2 (List.mem_cons_of_mem _ hb2)
            rw [hub2] at h1
            exact le_antisymm hb_le h1
        exact hcompl b hm3 hub

/-- C2 (counterexample): at zero prices, `tieX` registers `[gA]` with net
utility 0 and then `[gB]` with net utility 2⁻³¹, which differ by less than
the 1e-9 tolerance; `demand_set` returns only `[gB]` — the within-tolerance
bundle `[gA]` is dropped — while the same catalog scanned in the opposite
order (`tieY`) returns both, so the returned set also depends on scan
order. -/
theorem C2_tolerance_counterexample :
    PriceVector.new.demand_set tieX = [[gB]]
    ∧ absQ (PriceVector.new.net_utility tieX [gA]
        - PriceVector.new.net_utility tieX [gB]) < demandTol
    ∧ [gA] ∈ tieX.preference_bundles
    ∧ [gA] ∉ PriceVector.new.demand_set tieX
    ∧ PriceVector.new.demand_set tieY = [[gB], [gA]]
    ∧ tieY.preference_bundles.map (bundleKey)
      = (tieX.preference_bundles.map (bundleKey)).reverse := by
  have h1 : PriceVector.new.demand_set tieX = [[gB]] := by
    norm_num [PriceVector.demand_set, tieX,
      Agent.add_preference, Agent.new, demandStep, PriceVector.net_utility,
      Agent.preference, bundleKey, sortStrings, sortedInsert, insertA, lookupA,
      PriceVector.bundle_price, PriceVector.get_price, PriceVector.new, absQ,
      demandTol, gA, gB]
    simp only [String.reduceEq, if_false, if_true, Option.getD_some]
    norm_num
  refine ⟨h1, ?_, by decide, ?_, ?_, by decide⟩
  · norm_num [PriceVector.net_utility, tieX,
      Agent.add_preference, Agent.new, Agent.preference, bundleKey,
      sortStrings, sortedInsert, insertA, lookupA, PriceVector.bundle_price,
      PriceVector.get_price, PriceVector.new, absQ, demandTol, gA, gB]
    simp only [String.reduceEq, if_false, if_true, Option.getD_some]
    norm_num
  · rw [h1]
    decide
  · norm_num [PriceVector.demand_set, tieY,
      Agent.add_preference, Agent.new, demandStep, PriceVector.net_utility,
      Agent.preference, bundleKey, sortStrings, sortedInsert, insertA, lookupA,
      PriceVector.bundle_price, PriceVector.get_price, PriceVector.new, absQ,
      demandTol, gA, gB]
    simp only [String.reduceEq, if_false, if_true, Option.getD_some]
    norm_num
